import Mathlib

/-!
Shallow embedding of `update_index.py`, a one-shot script that reconciles the
markdown files of the working directory against an `index.md` file, appending
a link line `- [<name>](<base_url><name>)` for every markdown file whose
canonical entry line is not yet recorded.

Modelling conventions:
* Python strings are `Str := List Char`.
* The index file is `Content := Option (List Str)`: `none` means the file does
  not exist; `some segs` is the file whose raw byte content is obtained by
  joining the segments with a newline between consecutive segments (`render`).
  Thus `some [[]]` is an existing empty file, `some [s]` a file holding `s`
  with no trailing newline, and `some [s, []]` the file `s ++ "\n"`.  A file
  ends in a newline exactly when its last segment is empty.  Segments are the
  newline-free pieces of the content; file names are likewise taken
  newline-free, matching the split.
* Appending the bytes `s ++ "\n"` (what `append_to_index` writes, with `s`
  newline-free) continues the last, unterminated segment with `s` and opens a
  fresh empty segment: `appendWrite`.
* Python's `set` of existing entries is modelled by a `List Str` used only
  through membership, which is all the script does with it.
* Python's line iteration yields each physical line with its trailing newline
  (except possibly the last).  Filtering with `startswith "- ["` and then
  `strip()` gives the same result on the newline-free segments, because the
  marker contains no newline and `strip` discards a trailing newline anyway;
  the model therefore scans the segments directly.
-/

/-- Python strings as lists of characters. -/
abbrev Str := List Char

/-- `index_file = "index.md"` from the script. -/
def index_file : Str := "index.md".data

/-- `base_url = "https://github.com/arya2004/hashnode-backup/blob/main/"` from the script. -/
def base_url : Str := "https://github.com/arya2004/hashnode-backup/blob/main/".data

/-- Whitespace test used by Python's `str.strip()` (ASCII whitespace). -/
def isWS (c : Char) : Bool := c.isWhitespace

/-- Drop leading whitespace, the left half of Python's `str.strip()`. -/
def dropWS : Str → Str
  | [] => []
  | c :: cs => if isWS c then dropWS cs else c :: cs

/-- Python's `line.strip()`: whitespace removed from both ends. -/
def pyStrip (s : Str) : Str := (dropWS (dropWS s).reverse).reverse

/-- Python's `s.startswith(p)`. -/
def startswith : Str → Str → Bool
  | _, [] => true
  | [], _ :: _ => false
  | c :: cs, p :: ps => c == p && startswith cs ps

/-- Python's `s.endswith(p)`, via reversal. -/
def endswith (s p : Str) : Bool := startswith s.reverse p.reverse

/-- The entry marker `"- ["` that `read_existing_entries` filters on. -/
def marker : Str := ['-', ' ', '[']

/-- The file-content model: `none` when the index file does not exist,
otherwise the newline-split segments of its raw text. -/
abbrev Content := Option (List Str)

/-- `read_existing_entries`: keep the lines starting with `"- ["`, strip them,
collect them (a Python `set`, used only via membership). -/
def read_existing_entries (content : Content) : List Str :=
  match content with
  | none => []
  | some segs => (segs.filter (fun line => startswith line marker)).map pyStrip

/-- Last segment of a segment list (the unterminated tail of the file; `[]`
when the file ends in a newline or is empty). -/
def lastSeg : List Str → Str
  | [] => []
  | [s] => s
  | _ :: s :: rest => lastSeg (s :: rest)

/-- All segments but the last: the complete (newline-terminated) lines. -/
def dropLastSeg : List Str → List Str
  | [] => []
  | [_] => []
  | s :: t :: rest => s :: dropLastSeg (t :: rest)

/-- Appending the raw bytes `s ++ "\n"` (with `s` newline-free) to a file:
the last, unterminated segment is continued with `s` and a fresh empty
segment is opened; an absent file is created holding exactly `s ++ "\n"`. -/
def appendWrite (content : Content) (s : Str) : List Str :=
  match content with
  | none => [s, []]
  | some segs => dropLastSeg segs ++ [lastSeg segs ++ s, []]

/-- The canonical entry text `f"- [{file_name}]({link})"` from the script. -/
def entryFor (file_name link : Str) : Str :=
  ['-', ' ', '['] ++ file_name ++ [']', '('] ++ link ++ [')']

/-- `append_to_index`: open the index in append mode (creating it if absent)
and write the entry line followed by a newline. -/
def append_to_index (content : Content) (file_name link : Str) : Content :=
  some (appendWrite content (entryFor file_name link))

/-- `md_files`: the directory entries ending in `".md"` other than the index
file itself, in listing order. -/
def md_files (listing : List Str) : List Str :=
  listing.filter (fun f => endswith f ".md".data && f != index_file)

/-- The script's main loop over a file list, starting from an already-read
existing-entry set: append the canonical entry of every file whose entry is
not in the set.  The set is not updated inside the loop, exactly as in the
script. -/
def syncFrom (existing : List Str) (content : Content) (files : List Str) : Content :=
  files.foldl
    (fun c file_name =>
      if entryFor file_name (base_url ++ file_name) ∈ existing then c
      else append_to_index c file_name (base_url ++ file_name))
    content

/-- One run of the script on a directory listing and an initial index file. -/
def sync (listing : List Str) (content : Content) : Content :=
  syncFrom (read_existing_entries content) content (md_files listing)

/-- The entries the main loop appends, in loop order: the canonical entries of
`files` whose text is not in `existing` (duplicated if a name repeats, since
the set is never updated during the run). -/
def missingEntries (existing : List Str) : List Str → List Str
  | [] => []
  | f :: fs =>
    if entryFor f (base_url ++ f) ∈ existing then missingEntries existing fs
    else entryFor f (base_url ++ f) :: missingEntries existing fs

/-- The entries one `sync` run appends, in order. -/
def appendedEntries (listing : List Str) (content : Content) : List Str :=
  missingEntries (read_existing_entries content) (md_files listing)

/-- Net effect of appending the lines `E` (each `e ++ "\n"`) to a file. -/
def afterAppends (content : Content) (E : List Str) : Content :=
  match E with
  | [] => content
  | e :: rest =>
    match content with
    | none => some (e :: (rest ++ [[]]))
    | some segs => some (dropLastSeg segs ++ ((lastSeg segs ++ e) :: (rest ++ [[]])))

/-- Raw text of an existing file from its segments: segments joined by
newlines. -/
def render : List Str → Str
  | [] => []
  | [s] => s
  | s :: t :: rest => s ++ '\n' :: render (t :: rest)

/-- Raw text of a possibly absent file (`[]` when absent). -/
def renderC (content : Content) : Str :=
  match content with
  | none => []
  | some segs => render segs

/-- Raw text of a block of appended lines `e ++ "\n"`. -/
def linesText : List Str → Str
  | [] => []
  | e :: rest => e ++ '\n' :: linesText rest

/-- A file that is absent, empty, or ends in a newline (its last segment is
empty), so that an append starts on a fresh line. -/
def terminatedB (content : Content) : Bool :=
  match content with
  | none => true
  | some segs => lastSeg segs == []

/-- The complete (newline-terminated) lines a file starts with. -/
def preLines (content : Content) : List Str :=
  match content with
  | none => []
  | some segs => dropLastSeg segs

example : "a.md".data = ['a', '.', 'm', 'd'] := rfl

example : md_files ["a.md".data, "index.md".data, "b.txt".data] = ["a.md".data] := by decide

example :
    sync ["a.md".data] none =
      some [entryFor "a.md".data (base_url ++ "a.md".data), []] := by decide

example :
    sync ["a.md".data] (some [['x']]) =
      some ['x' :: entryFor "a.md".data (base_url ++ "a.md".data), []] := by decide

example :
    sync ["a.md".data] (some [entryFor "a.md".data (base_url ++ "a.md".data), []]) =
      some [entryFor "a.md".data (base_url ++ "a.md".data), []] := by decide

/-! Structural lemmas about segments. -/

/-- Last segment of a list ending in `[a]` is `a`. -/
theorem lastSeg_append_one (X : List Str) (a : Str) : lastSeg (X ++ [a]) = a := by
  induction X with
  | nil => rfl
  | cons x X ih =>
    cases X with
    | nil => rfl
    | cons y Y => simpa [lastSeg] using ih

/-- Dropping the last segment of a list ending in `[a]` leaves the front. -/
theorem dropLastSeg_append_one (X : List Str) (a : Str) : dropLastSeg (X ++ [a]) = X := by
  induction X with
  | nil => rfl
  | cons x X ih =>
    cases X with
    | nil => rfl
    | cons y Y => simpa [dropLastSeg] using ih

/-- Last segment of a list ending in `[a, b]` is `b`. -/
theorem lastSeg_append_two (X : List Str) (a b : Str) : lastSeg (X ++ [a, b]) = b := by
  have h : X ++ [a, b] = (X ++ [a]) ++ [b] := by simp
  rw [h, lastSeg_append_one]

/-- Dropping the last segment of a list ending in `[a, b]`. -/
theorem dropLastSeg_append_two (X : List Str) (a b : Str) :
    dropLastSeg (X ++ [a, b]) = X ++ [a] := by
  have h : X ++ [a, b] = (X ++ [a]) ++ [b] := by simp
  rw [h, dropLastSeg_append_one]

/-- Every nonempty segment list is its front followed by its last segment. -/
theorem dropLastSeg_append_lastSeg : ∀ segs : List Str, segs ≠ [] →
    dropLastSeg segs ++ [lastSeg segs] = segs := by
  intro segs
  induction segs with
  | nil => intro h; cases h rfl
  | cons x X ih =>
    intro _
    cases X with
    | nil => rfl
    | cons y Y =>
      have := ih (by simp)
      simpa [dropLastSeg, lastSeg] using this

/-- Membership in the front segments is membership in the list. -/
theorem mem_of_mem_dropLastSeg {segs : List Str} {x : Str} (h : x ∈ dropLastSeg segs) :
    x ∈ segs := by
  induction segs with
  | nil => cases h
  | cons a Y ih =>
    cases Y with
    | nil => cases h
    | cons b Z =>
      rcases List.mem_cons.mp (by simpa [dropLastSeg] using h) with rfl | h'
      · exact List.mem_cons_self _ _
      · exact List.mem_cons_of_mem _ (ih h')

/-! The main loop in normal form. -/

/-- Unfolding one step of the main loop. -/
theorem syncFrom_cons (ex : List Str) (C : Content) (f : Str) (fs : List Str) :
    syncFrom ex C (f :: fs) =
      syncFrom ex
        (if entryFor f (base_url ++ f) ∈ ex then C
         else append_to_index C f (base_url ++ f)) fs := rfl

/-- Appending one line and then a block of lines is appending the whole block. -/
theorem afterAppends_append (C : Content) (f link : Str) (E : List Str) :
    afterAppends (append_to_index C f link) E = afterAppends C (entryFor f link :: E) := by
  cases C with
  | none =>
    cases E with
    | nil => rfl
    | cons e rest => rfl
  | some segs =>
    cases E with
    | nil => rfl
    | cons e rest =>
      show some
          (dropLastSeg (dropLastSeg segs ++ [lastSeg segs ++ entryFor f link, []]) ++
            ((lastSeg (dropLastSeg segs ++ [lastSeg segs ++ entryFor f link, []]) ++ e) ::
              (rest ++ [[]]))) =
        some (dropLastSeg segs ++
          ((lastSeg segs ++ entryFor f link) :: ((e :: rest) ++ [[]])))
      rw [dropLastSeg_append_two, lastSeg_append_two]
      simp

/-- The main loop equals appending precisely the missing entries, in order. -/
theorem syncFrom_eq : ∀ (fs ex : List Str) (C : Content),
    syncFrom ex C fs = afterAppends C (missingEntries ex fs) := by
  intro fs
  induction fs with
  | nil => intro ex C; rfl
  | cons f fs ih =>
    intro ex C
    rw [syncFrom_cons]
    by_cases h : entryFor f (base_url ++ f) ∈ ex
    · rw [if_pos h, ih, missingEntries, if_pos h]
    · rw [if_neg h, ih, afterAppends_append, missingEntries, if_neg h]

/-- One run of the script appends exactly its missing entries, in order. -/
theorem sync_eq (L : List Str) (C : Content) :
    sync L C = afterAppends C (appendedEntries L C) := syncFrom_eq _ _ _

/-! Shape of canonical entry lines. -/

/-- A canonical entry line starts with the marker `"- ["`. -/
theorem startswith_entry (f link : Str) : startswith (entryFor f link) marker = true := by
  simp [entryFor, marker, startswith]

/-- A canonical entry line written as a front part followed by `')'`. -/
theorem entryFor_concat (f link : Str) :
    entryFor f link = (['-', ' ', '['] ++ f ++ [']', '('] ++ link) ++ [')'] := by
  simp [entryFor]

/-- Python's `strip()` leaves a canonical entry line unchanged: it starts with
`'-'` and ends with `')'`, neither of which is whitespace. -/
theorem pyStrip_entry (f link : Str) : pyStrip (entryFor f link) = entryFor f link := by
  have h1 : dropWS (entryFor f link) = entryFor f link := by
    simp [entryFor, dropWS, isWS]
  have h2 : (entryFor f link).reverse =
      ')' :: (['-', ' ', '['] ++ f ++ [']', '('] ++ link).reverse := by
    simp [entryFor]
  have h3 : dropWS (entryFor f link).reverse = (entryFor f link).reverse := by
    rw [h2, dropWS]
    simp [isWS]
  rw [pyStrip, h1, h3, List.reverse_reverse]

/-- Canonical entries of distinct file names are distinct. -/
theorem entryFor_inj {f g : Str}
    (h : entryFor f (base_url ++ f) = entryFor g (base_url ++ g)) : f = g := by
  have hlen : f.length = g.length := by
    have hl := congrArg List.length h
    simp [entryFor, List.length_append] at hl
    omega
  have hx := h
  simp only [entryFor, List.append_assoc, List.cons_append, List.nil_append,
    List.cons.injEq, true_and] at hx
  exact List.append_inj_left hx hlen

/-! Membership in the existing-entry set. -/

/-- The existing-entry set holds exactly the strips of the marker lines. -/
theorem mem_read_iff {segs : List Str} {x : Str} :
    x ∈ read_existing_entries (some segs) ↔
      ∃ line, line ∈ segs ∧ startswith line marker = true ∧ pyStrip line = x := by
  simp [read_existing_entries, List.mem_map, List.mem_filter, and_assoc]

/-! Membership in the appended-entry block. -/

/-- A candidate whose canonical entry is not in the set gets it appended. -/
theorem mem_missingEntries_of {ex fs : List Str} {f : Str} (hf : f ∈ fs)
    (h : entryFor f (base_url ++ f) ∉ ex) :
    entryFor f (base_url ++ f) ∈ missingEntries ex fs := by
  induction fs with
  | nil => cases hf
  | cons g gs ih =>
    rcases List.mem_cons.mp hf with rfl | hf'
    · simp [missingEntries, h]
    · by_cases hg : entryFor g (base_url ++ g) ∈ ex
      · simpa [missingEntries, hg] using ih hf'
      · rw [missingEntries, if_neg hg]
        exact List.mem_cons_of_mem _ (ih hf')

/-- Every appended entry is the canonical entry of some listed file whose
entry was missing from the set. -/
theorem of_mem_missingEntries {ex fs : List Str} {x : Str}
    (h : x ∈ missingEntries ex fs) :
    x ∉ ex ∧ ∃ f, f ∈ fs ∧ x = entryFor f (base_url ++ f) := by
  induction fs with
  | nil => cases h
  | cons g gs ih =>
    by_cases hg : entryFor g (base_url ++ g) ∈ ex
    · rw [missingEntries, if_pos hg] at h
      rcases ih h with ⟨h1, f, hf, rfl⟩
      exact ⟨h1, f, List.mem_cons_of_mem _ hf, rfl⟩
    · rw [missingEntries, if_neg hg] at h
      rcases List.mem_cons.mp h with rfl | h'
      · exact ⟨hg, g, List.mem_cons_self _ _, rfl⟩
      · rcases ih h' with ⟨h1, f, hf, rfl⟩
        exact ⟨h1, f, List.mem_cons_of_mem _ hf, rfl⟩

/-- When every candidate's entry is already in the set, nothing is appended. -/
theorem missingEntries_eq_nil {ex fs : List Str}
    (h : ∀ f, f ∈ fs → entryFor f (base_url ++ f) ∈ ex) :
    missingEntries ex fs = [] := by
  induction fs with
  | nil => rfl
  | cons g gs ih =>
    rw [missingEntries, if_pos (h g (List.mem_cons_self _ _))]
    exact ih fun f hf => h f (List.mem_cons_of_mem _ hf)

/-- Appending to a terminated file places the block as fresh whole lines. -/
theorem afterAppends_terminated {C : Content} (h : terminatedB C = true)
    (e : Str) (rest : List Str) :
    afterAppends C (e :: rest) = some (preLines C ++ ((e :: rest) ++ [[]])) := by
  cases C with
  | none => rfl
  | some segs =>
    have hl : lastSeg segs = [] := by simpa [terminatedB] using h
    simp [afterAppends, preLines, hl]

/-! Raw-text (byte level) view of the segment model. -/

/-- Unfolding `render` on a cons with a nonempty tail. -/
theorem render_cons {t : List Str} (s : Str) (h : t ≠ []) :
    render (s :: t) = s ++ '\n' :: render t := by
  cases t with
  | nil => cases h rfl
  | cons a r => rfl

/-- Raw text of a concatenation of segment lists, the right one nonempty. -/
theorem render_append (X : List Str) {Y : List Str} (h : Y ≠ []) :
    render (X ++ Y) = linesText X ++ render Y := by
  induction X with
  | nil => rfl
  | cons x X ih =>
    have hXY : X ++ Y ≠ [] := by
      intro hc
      exact h (List.append_eq_nil.mp hc).2
    rw [List.cons_append, render_cons x hXY, ih, linesText]
    simp [List.append_assoc]

/-- Raw text of a newline-terminated segment list. -/
theorem render_append_nilseg (X : List Str) : render (X ++ [[]]) = linesText X := by
  rw [render_append X (by simp)]
  simp [render]

/-- Raw text decomposed into the complete lines and the unterminated tail. -/
theorem render_eq (segs : List Str) :
    render segs = linesText (dropLastSeg segs) ++ lastSeg segs := by
  rcases eq_or_ne segs [] with rfl | hne
  · rfl
  · conv_lhs => rw [← dropLastSeg_append_lastSeg segs hne]
    rw [render_append (dropLastSeg segs) (by simp)]
    rfl

/-- At byte level, appending a block of entry lines appends exactly their
text, whatever the file looked like before. -/
theorem renderC_afterAppends (C : Content) (E : List Str) :
    renderC (afterAppends C E) = renderC C ++ linesText E := by
  cases E with
  | nil => simp [afterAppends, linesText]
  | cons e rest =>
    cases C with
    | none =>
      have hA : afterAppends none (e :: rest) = some ((e :: rest) ++ [[]]) := rfl
      rw [hA]
      show render ((e :: rest) ++ [[]]) = [] ++ linesText (e :: rest)
      rw [render_append_nilseg]
      rfl
    | some segs =>
      have hA : afterAppends (some segs) (e :: rest) =
          some (dropLastSeg segs ++ ((lastSeg segs ++ e) :: (rest ++ [[]]))) := rfl
      rw [hA]
      show render (dropLastSeg segs ++ ((lastSeg segs ++ e) :: (rest ++ [[]]))) =
        render segs ++ linesText (e :: rest)
      rw [render_append (dropLastSeg segs) (by simp), render_cons _ (by simp),
        render_append_nilseg]
      rw [render_eq segs, linesText]
      simp [List.append_assoc]

/-! The run's entry set feeds back into the next run. -/

/-- After a run on a terminated file, every candidate's canonical entry is in
the existing-entry set the next run would read: either it was already
witnessed by a surviving complete line, or it was appended as a fresh line. -/
theorem entry_mem_read_sync {L : List Str} {C : Content} (hterm : terminatedB C = true)
    {f : Str} (hf : f ∈ md_files L) :
    entryFor f (base_url ++ f) ∈ read_existing_entries (sync L C) := by
  by_cases hmem : entryFor f (base_url ++ f) ∈ read_existing_entries C
  · cases C with
    | none => simp [read_existing_entries] at hmem
    | some segs =>
      rcases mem_read_iff.mp hmem with ⟨line, hline, hsw, hstrip⟩
      have hlast : lastSeg segs = [] := by simpa [terminatedB] using hterm
      have hlineD : line ∈ dropLastSeg segs := by
        have hne : segs ≠ [] := List.ne_nil_of_mem hline
        have hdec := dropLastSeg_append_lastSeg segs hne
        rw [← hdec] at hline
        rcases List.mem_append.mp hline with h1 | h2
        · exact h1
        · exfalso
          have hl : line = lastSeg segs := List.mem_singleton.mp h2
          rw [hl, hlast] at hsw
          simp [startswith, marker] at hsw
      rw [sync_eq]
      cases hE : appendedEntries L (some segs) with
      | nil =>
        simpa [afterAppends] using hmem
      | cons e' rest =>
        rw [afterAppends_terminated hterm]
        refine mem_read_iff.mpr ⟨line, ?_, hsw, hstrip⟩
        have : line ∈ dropLastSeg segs ++ ((e' :: rest) ++ [[]]) :=
          List.mem_append_left _ hlineD
        simpa [preLines] using this
  · have hmE : entryFor f (base_url ++ f) ∈ appendedEntries L C :=
      mem_missingEntries_of hf hmem
    rw [sync_eq]
    cases hE : appendedEntries L C with
    | nil => rw [hE] at hmE; cases hmE
    | cons e' rest =>
      rw [afterAppends_terminated hterm]
      refine mem_read_iff.mpr
        ⟨entryFor f (base_url ++ f), ?_, startswith_entry _ _, pyStrip_entry _ _⟩
      rw [hE] at hmE
      exact List.mem_append_right _ (List.mem_append_left _ hmE)

/-- With a duplicate-free file list the appended block has no duplicates. -/
theorem missingEntries_nodup {ex fs : List Str} (h : fs.Nodup) :
    (missingEntries ex fs).Nodup := by
  induction fs with
  | nil => exact List.nodup_nil
  | cons g gs ih =>
    rcases List.nodup_cons.mp h with ⟨hg, hgs⟩
    by_cases hmem : entryFor g (base_url ++ g) ∈ ex
    · rw [missingEntries, if_pos hmem]
      exact ih hgs
    · rw [missingEntries, if_neg hmem]
      refine List.nodup_cons.mpr ⟨?_, ih hgs⟩
      intro hc
      rcases of_mem_missingEntries hc with ⟨-, f, hf, heq⟩
      have hgf : g = f := entryFor_inj heq
      cases hgf
      exact hg hf

/-- Membership in the candidate list. -/
theorem mem_md_files {L : List Str} {f : Str} :
    f ∈ md_files L ↔ f ∈ L ∧ endswith f ".md".data = true ∧ f ≠ index_file := by
  simp [md_files, List.mem_filter, Bool.and_eq_true, bne_iff_ne, and_assoc]

/-! Claim C1: completeness. -/

/-- C1, counterexample: the claim says that after a run every candidate's
canonical entry occurs as a line exactly equal to `- [<name>](<base_url><name>)`.
With the directory listing `["a.md"]` and an index whose single line is the
canonical entry for `a.md` followed by one trailing space, the run is a no-op
(the stripped line suppresses the append), yet no line of the final file is
exactly the canonical entry. -/
theorem C1_cex :
    sync ["a.md".data]
        (some [entryFor "a.md".data (base_url ++ "a.md".data) ++ [' '], []]) =
      some [entryFor "a.md".data (base_url ++ "a.md".data) ++ [' '], []] ∧
    "a.md".data ∈ md_files ["a.md".data] ∧
    entryFor "a.md".data (base_url ++ "a.md".data) ∉
      [entryFor "a.md".data (base_url ++ "a.md".data) ++ [' '], ([] : Str)] := by
  decide

/-- C1, amended: if the pre-run index file is absent, empty, or
newline-terminated, then after a run the file contains, for every candidate
markdown file, at least one line that starts with `- [` and strips to exactly
the canonical entry `- [<name>](<base_url><name>)`. -/
theorem C1_completeness (L : List Str) (C : Content) (hterm : terminatedB C = true)
    (f : Str) (hf : f ∈ md_files L) :
    ∃ segs', sync L C = some segs' ∧
      ∃ line, line ∈ segs' ∧ startswith line marker = true ∧
        pyStrip line = entryFor f (base_url ++ f) := by
  have hread := entry_mem_read_sync hterm hf
  cases hsync : sync L C with
  | none =>
    rw [hsync] at hread
    simp [read_existing_entries] at hread
  | some segs' =>
    rw [hsync] at hread
    exact ⟨segs', rfl, mem_read_iff.mp hread⟩

/-- C1, witness: the amended completeness at a concrete run. -/
theorem C1_witness :
    ∃ segs', sync ["a.md".data] none = some segs' ∧
      ∃ line, line ∈ segs' ∧ startswith line marker = true ∧
        pyStrip line = entryFor "a.md".data (base_url ++ "a.md".data) :=
  C1_completeness ["a.md".data] none (by decide) "a.md".data (by decide)

/-! Claim C2: idempotence. -/

/-- C2, counterexample: the claim quantifies over every initial index-file
content.  Starting from the file holding the single byte `x` with no trailing
newline, the first run glues its entry onto that unterminated line, the
resulting line no longer starts with `- [`, and the second run appends the
same entry again: running twice differs from running once. -/
theorem C2_cex :
    sync ["a.md".data] (sync ["a.md".data] (some [['x']])) ≠
      sync ["a.md".data] (some [['x']]) ∧
    appendedEntries ["a.md".data] (sync ["a.md".data] (some [['x']])) ≠ [] := by
  decide

/-- C2, amended: if the initial index file is absent, empty, or
newline-terminated, running the synchronize operation twice on the same
listing equals running it once, and the second run appends nothing. -/
theorem C2_idempotent (L : List Str) (C : Content) (hterm : terminatedB C = true) :
    sync L (sync L C) = sync L C ∧ appendedEntries L (sync L C) = [] := by
  have hnil : appendedEntries L (sync L C) = [] :=
    missingEntries_eq_nil fun f hf => entry_mem_read_sync hterm hf
  refine ⟨?_, hnil⟩
  rw [sync_eq L (sync L C), hnil]
  rfl

/-- C2, witness: the amended idempotence at a concrete run. -/
theorem C2_witness :
    sync ["a.md".data] (sync ["a.md".data] none) = sync ["a.md".data] none ∧
    appendedEntries ["a.md".data] (sync ["a.md".data] none) = [] :=
  C2_idempotent ["a.md".data] none (by decide)

/-! Claim C3: non-destructive append-only. -/

/-- C3, counterexample: the claim asserts, besides the byte-for-byte prefix,
that every pre-existing line is still present after the run.  Starting from
the file holding `x` with no trailing newline, the appended entry is glued
onto that line, so the pre-existing line `x` is no longer a line of the final
file (the byte prefix does survive). -/
theorem C3_cex :
    sync ["a.md".data] (some [['x']]) =
      some ['x' :: entryFor "a.md".data (base_url ++ "a.md".data), []] ∧
    ['x'] ∉ ['x' :: entryFor "a.md".data (base_url ++ "a.md".data), ([] : Str)] := by
  decide

/-- C3, amended: the raw content after a run always extends the pre-run raw
content byte for byte (new bytes only at the end), and when the pre-run file
was absent, empty, or newline-terminated, every complete pre-run line is
still an initial segment of the final line list, in order. -/
theorem C3_append_only (L : List Str) (C : Content) :
    (∃ t, renderC (sync L C) = renderC C ++ t) ∧
      (terminatedB C = true → ∀ segs', sync L C = some segs' →
        ∃ u, segs' = preLines C ++ u) := by
  constructor
  · exact ⟨linesText (appendedEntries L C), by rw [sync_eq, renderC_afterAppends]⟩
  · intro hterm segs' hsync
    rw [sync_eq] at hsync
    cases hE : appendedEntries L C with
    | nil =>
      rw [hE] at hsync
      simp only [afterAppends] at hsync
      cases C with
      | none => cases hsync
      | some segs =>
        have hss : segs = segs' := by injection hsync
        subst hss
        rcases eq_or_ne segs [] with rfl | hne
        · exact ⟨[], rfl⟩
        · exact ⟨[lastSeg segs], (dropLastSeg_append_lastSeg segs hne).symm⟩
    | cons e' rest =>
      rw [hE, afterAppends_terminated hterm] at hsync
      have hss := Option.some.inj hsync
      exact ⟨(e' :: rest) ++ [[]], hss.symm⟩

/-- C3, witness: the amended statement at a concrete run on an empty file. -/
theorem C3_witness :
    (∃ t, renderC (sync ["a.md".data] (some [[]])) =
      renderC (some [([] : Str)]) ++ t) ∧
    (∃ u, [entryFor "a.md".data (base_url ++ "a.md".data), ([] : Str)] =
      preLines (some [([] : Str)]) ++ u) :=
  ⟨(C3_append_only ["a.md".data] (some [[]])).1,
    (C3_append_only ["a.md".data] (some [[]])).2 (by decide)
      [entryFor "a.md".data (base_url ++ "a.md".data), []] (by decide)⟩

/-! Claim C4: within-run deduplication. -/

/-- C4, counterexample: the claim says an appended entry is treated as present
for the rest of the run.  The loop never updates the existing-entry set, so on
a listing that repeats `a.md` the same canonical entry is appended twice in a
single run. -/
theorem C4_cex :
    sync ["a.md".data, "a.md".data] none =
      some [entryFor "a.md".data (base_url ++ "a.md".data),
        entryFor "a.md".data (base_url ++ "a.md".data), []] ∧
    appendedEntries ["a.md".data, "a.md".data] none =
      [entryFor "a.md".data (base_url ++ "a.md".data),
        entryFor "a.md".data (base_url ++ "a.md".data)] := by
  decide

/-- C4, amended: the existing-entry set is not updated during a run, so
deduplication within a run rests on the listing not repeating names; for a
duplicate-free directory listing (the only kind a real directory produces)
the block of appended entries has no duplicate line, and the run's result is
exactly that block appended. -/
theorem C4_nodup (L : List Str) (C : Content) (h : L.Nodup) :
    (appendedEntries L C).Nodup ∧ sync L C = afterAppends C (appendedEntries L C) :=
  ⟨missingEntries_nodup (List.Nodup.filter _ h), sync_eq L C⟩

/-- C4, witness: the amended statement at a concrete duplicate-free listing. -/
theorem C4_witness :
    (appendedEntries ["a.md".data, "b.md".data] none).Nodup ∧
    sync ["a.md".data, "b.md".data] none =
      afterAppends none (appendedEntries ["a.md".data, "b.md".data] none) :=
  C4_nodup ["a.md".data, "b.md".data] none (by decide)

/-! Claim C5: exact-line deduplication (Scenario D). -/

/-- C5, counterexample: the claim promises that whenever `a.md` appears in the
index only in a line not character-for-character equal to the canonical entry,
the run appends the canonical entry and the file ends with two entry lines for
`a.md`.  With the index holding the single unterminated line `- [a.md](old)`
(a genuinely different URL), the appended entry is glued onto that line: the
final file has one line only, and the canonical entry is not a line of it. -/
theorem C5_cex :
    sync ["a.md".data] (some ["- [a.md](old)".data]) =
      some ["- [a.md](old)".data ++ entryFor "a.md".data (base_url ++ "a.md".data), []] ∧
    entryFor "a.md".data (base_url ++ "a.md".data) ∉
      ["- [a.md](old)".data ++ entryFor "a.md".data (base_url ++ "a.md".data),
        ([] : Str)] := by
  decide

/-- C5, amended: if the pre-run index file is newline-terminated and none of
its lines strips to the canonical entry of candidate `f` (in particular when
`f` only appears in entry lines carrying a different URL), the run appends the
canonical entry: the final file keeps all complete pre-run lines (including
the differing-URL entry) and contains the canonical entry as a line of its
own. -/
theorem C5_scenarioD (L : List Str) (segs : List Str) (f : Str)
    (hterm : terminatedB (some segs) = true) (hf : f ∈ md_files L)
    (hdiff : ∀ line, line ∈ segs → pyStrip line ≠ entryFor f (base_url ++ f)) :
    ∃ segs', sync L (some segs) = some segs' ∧
      entryFor f (base_url ++ f) ∈ segs' ∧ ∃ t, segs' = dropLastSeg segs ++ t := by
  have hnot : entryFor f (base_url ++ f) ∉ read_existing_entries (some segs) := by
    intro hc
    rcases mem_read_iff.mp hc with ⟨line, hl, -, hs⟩
    exact hdiff line hl hs
  have hmE : entryFor f (base_url ++ f) ∈ appendedEntries L (some segs) :=
    mem_missingEntries_of hf hnot
  cases hE : appendedEntries L (some segs) with
  | nil => rw [hE] at hmE; cases hmE
  | cons e' rest =>
    refine ⟨preLines (some segs) ++ ((e' :: rest) ++ [[]]), ?_, ?_, ?_⟩
    · rw [sync_eq, hE, afterAppends_terminated hterm]
    · rw [hE] at hmE
      exact List.mem_append_right _ (List.mem_append_left _ hmE)
    · exact ⟨(e' :: rest) ++ [[]], rfl⟩

/-- C5, witness: Scenario D proper, on a newline-terminated index holding
`- [a.md](old)`. -/
theorem C5_witness :
    ∃ segs', sync ["a.md".data] (some ["- [a.md](old)".data, []]) = some segs' ∧
      entryFor "a.md".data (base_url ++ "a.md".data) ∈ segs' ∧
      ∃ t, segs' = dropLastSeg ["- [a.md](old)".data, []] ++ t :=
  C5_scenarioD ["a.md".data] ["- [a.md](old)".data, []] "a.md".data
    (by decide) (by decide) (by decide)

/-! Claim C6: malformed-line handling. -/

/-- C6: lines not starting with `- [` are silently excluded from the
deduplication set (every set member is the strip of some marker line), and
such a line can never suppress an append: if every marker line of the file
strips to something other than candidate `f`'s canonical entry, that entry is
appended — even when a malformed line (say, one with leading whitespace)
would match it after stripping. -/
theorem C6_malformed (segs : List Str) (L : List Str) (f : Str) :
    (∀ x, x ∈ read_existing_entries (some segs) →
      ∃ line, line ∈ segs ∧ startswith line marker = true ∧ pyStrip line = x) ∧
    (f ∈ md_files L →
      (∀ line, line ∈ segs → startswith line marker = true →
        pyStrip line ≠ entryFor f (base_url ++ f)) →
      entryFor f (base_url ++ f) ∈ appendedEntries L (some segs)) := by
  constructor
  · intro x hx
    exact mem_read_iff.mp hx
  · intro hf hyp
    apply mem_missingEntries_of hf
    intro hc
    rcases mem_read_iff.mp hc with ⟨line, hl, hsw, hs⟩
    exact hyp line hl hsw hs

/-- C6, witness: a file whose only line is the canonical entry for `a.md`
preceded by one space; the line is excluded from the set and the entry is
appended regardless. -/
theorem C6_witness :
    entryFor "a.md".data (base_url ++ "a.md".data) ∈
      appendedEntries ["a.md".data]
        (some [' ' :: entryFor "a.md".data (base_url ++ "a.md".data)]) :=
  (C6_malformed [' ' :: entryFor "a.md".data (base_url ++ "a.md".data)]
    ["a.md".data] "a.md".data).2 (by decide) (by decide)

/-! Claim C7: exclusion of the index file. -/

/-- C7: the name `index.md` never passes the candidate filter, and no run ever
appends the entry line `- [index.md](<base_url>index.md)`: every appended
entry is the canonical entry of some candidate, and canonical entries of
distinct names are distinct strings. -/
theorem C7_exclusion (L : List Str) (C : Content) :
    index_file ∉ md_files L ∧
    entryFor index_file (base_url ++ index_file) ∉ appendedEntries L C := by
  constructor
  · intro h
    rcases mem_md_files.mp h with ⟨-, -, hne⟩
    exact hne rfl
  · intro h
    rcases of_mem_missingEntries h with ⟨-, f, hf, heq⟩
    rcases mem_md_files.mp hf with ⟨-, -, hne⟩
    exact hne (entryFor_inj heq).symm

/-- C7, witness: the exclusion at a concrete listing containing `index.md`. -/
theorem C7_witness :
    index_file ∉ md_files ["a.md".data, "index.md".data] ∧
    entryFor index_file (base_url ++ index_file) ∉
      appendedEntries ["a.md".data, "index.md".data] none :=
  C7_exclusion ["a.md".data, "index.md".data] none

/-! Claim C8: no-candidate frame condition. -/

/-- C8: on a listing with no candidate markdown file (every name ending in
`.md` being the index file's own name), a run leaves the index file exactly as
it was — and leaves it absent if it was absent. -/
theorem C8_frame (L : List Str) (C : Content)
    (h : ∀ f, f ∈ L → endswith f ".md".data = true → f = index_file) :
    sync L C = C := by
  have hmd : md_files L = [] := by
    rw [md_files]
    rw [List.filter_eq_nil_iff]
    intro f hf
    simp only [Bool.and_eq_true, bne_iff_ne, not_and, not_not]
    exact h f hf
  rw [sync, hmd]
  rfl

/-- C8, witness: a directory holding only `index.md` and a non-markdown file
leaves the existing index unchanged, and an absent index stays absent. -/
theorem C8_witness :
    sync ["index.md".data, "b.txt".data] (some [['x']]) = some [['x']] :=
  C8_frame ["index.md".data, "b.txt".data] (some [['x']]) (by decide)

/-! Claim C9: discovered-order appending. -/

/-- C9: the text a run appends is exactly the canonical lines of the missed
candidates in listing order (`appendedEntries` walks `md_files` in order), and
on a newline-terminated or absent index these lines appear as whole lines, in
that order, right after the pre-run lines. -/
theorem C9_order (L : List Str) (C : Content) :
    renderC (sync L C) = renderC C ++ linesText (appendedEntries L C) ∧
    (terminatedB C = true → appendedEntries L C ≠ [] →
      sync L C = some (preLines C ++ (appendedEntries L C ++ [[]]))) := by
  constructor
  · rw [sync_eq, renderC_afterAppends]
  · intro hterm hne
    rw [sync_eq]
    cases hE : appendedEntries L C with
    | nil => exact absurd hE hne
    | cons e' rest => rw [afterAppends_terminated hterm]

/-- C9, witness: the order statement at a concrete two-candidate run. -/
theorem C9_witness :
    renderC (sync ["a.md".data, "b.md".data] none) =
      renderC none ++ linesText (appendedEntries ["a.md".data, "b.md".data] none) ∧
    sync ["a.md".data, "b.md".data] none =
      some (preLines none ++ (appendedEntries ["a.md".data, "b.md".data] none ++ [[]])) :=
  ⟨(C9_order ["a.md".data, "b.md".data] none).1,
    (C9_order ["a.md".data, "b.md".data] none).2 (by decide) (by decide)⟩

/-! Claim C10: round-trip between write and scan. -/

/-- C10, counterexample: the claim says the line `append_to_index` writes is
always recognized by the next `read_existing_entries`.  Appending to the file
holding `x` with no trailing newline glues the entry onto that line; the scan
of the result finds no line starting with `- [`, so the freshly written entry
is not in the next run's set. -/
theorem C10_cex :
    read_existing_entries
        (append_to_index (some [['x']]) "a.md".data (base_url ++ "a.md".data)) = [] ∧
    entryFor "a.md".data (base_url ++ "a.md".data) ∉
      read_existing_entries
        (append_to_index (some [['x']]) "a.md".data (base_url ++ "a.md".data)) := by
  decide

/-- C10, amended: for a file name without a newline and a file that is absent,
empty, or newline-terminated, the line `append_to_index` writes starts with
`- [`, strips to exactly the canonical entry, and is a member of the
existing-entry set scanned from the resulting file. -/
theorem C10_roundtrip (f : Str) (C : Content) (_hnl : '\n' ∉ f)
    (hterm : terminatedB C = true) :
    startswith (entryFor f (base_url ++ f)) marker = true ∧
    pyStrip (entryFor f (base_url ++ f)) = entryFor f (base_url ++ f) ∧
    entryFor f (base_url ++ f) ∈
      read_existing_entries (append_to_index C f (base_url ++ f)) := by
  refine ⟨startswith_entry _ _, pyStrip_entry _ _, ?_⟩
  cases C with
  | none =>
    exact mem_read_iff.mpr
      ⟨entryFor f (base_url ++ f), by simp [append_to_index, appendWrite],
        startswith_entry _ _, pyStrip_entry _ _⟩
  | some segs =>
    have hlast : lastSeg segs = [] := by simpa [terminatedB] using hterm
    refine mem_read_iff.mpr
      ⟨entryFor f (base_url ++ f), ?_, startswith_entry _ _, pyStrip_entry _ _⟩
    show entryFor f (base_url ++ f) ∈ dropLastSeg segs ++ [lastSeg segs ++ _, []]
    rw [hlast]
    simp

/-- C10, witness: the amended round trip at a concrete name and an empty
file. -/
theorem C10_witness :
    startswith (entryFor "a.md".data (base_url ++ "a.md".data)) marker = true ∧
    pyStrip (entryFor "a.md".data (base_url ++ "a.md".data)) =
      entryFor "a.md".data (base_url ++ "a.md".data) ∧
    entryFor "a.md".data (base_url ++ "a.md".data) ∈
      read_existing_entries
        (append_to_index (some [[]]) "a.md".data (base_url ++ "a.md".data)) :=
  C10_roundtrip "a.md".data (some [[]]) (by decide) (by decide)
